import Mathlib

set_option maxRecDepth 8000

/-!
Verification of the corpus-merge and court-resolution engine of the
CourtListener repository.  The repository snapshot ships the test suite of
the engine (`cl/corpus_importer/tests.py`) but not the modules under test
(`court_regexes.py`, `harvard_merge.py`, `harvard_opinions.py`,
`parse_opinions.py`); every definition standing in for one of those missing
functions is therefore modelled from the specification, and is written to
agree with the concrete input/output pairs recorded in the test suite.
-/

/-- Lower-case a single ASCII letter, leaving every other character alone. -/
def lcChar (c : Char) : Char :=
  if 65 ≤ c.toNat ∧ c.toNat ≤ 90 then Char.ofNat (c.toNat + 32) else c

/-- ASCII decimal-digit test. -/
def isDigitB (c : Char) : Bool :=
  decide (48 ≤ c.toNat ∧ c.toNat ≤ 57)

/-- ASCII letter test. -/
def isAlphaB (c : Char) : Bool :=
  decide ((65 ≤ c.toNat ∧ c.toNat ≤ 90) ∨ (97 ≤ c.toNat ∧ c.toNat ≤ 122))

/-- ASCII letter-or-digit test. -/
def isAlnumB (c : Char) : Bool :=
  isDigitB c || isAlphaB c

/-- Split a character list at every character satisfying `p`; the separators
are dropped and empty groups are kept, as in Python's `str.split(sep)`. -/
def splitOnP (p : Char → Bool) : List Char → List (List Char)
  | [] => [[]]
  | c :: l =>
    if p c then [] :: splitOnP p l
    else
      match splitOnP p l with
      | [] => [[c]]
      | g :: gs => (c :: g) :: gs

theorem splitOnP_ne_nil (p : Char → Bool) (l : List Char) : splitOnP p l ≠ [] := by
  induction l with
  | nil => simp [splitOnP]
  | cons c l ih =>
    simp only [splitOnP]
    split
    · simp
    · split
      · simp
      · simp

/-- A list with no separator characters forms a single group. -/
theorem splitOnP_clean (p : Char → Bool) (l : List Char)
    (h : ∀ c ∈ l, p c = false) : splitOnP p l = [l] := by
  induction l with
  | nil => rfl
  | cons c l ih =>
    have hc : p c = false := h c (by simp)
    have ih' := ih (fun d hd => h d (by simp [hd]))
    simp [splitOnP, hc, ih']

/-- Splitting a clean prefix followed by a separator peels off the prefix. -/
theorem splitOnP_clean_append (p : Char → Bool) (l r : List Char) (d : Char)
    (h : ∀ c ∈ l, p c = false) (hd : p d = true) :
    splitOnP p (l ++ d :: r) = l :: splitOnP p r := by
  induction l with
  | nil => simp [splitOnP, hd]
  | cons c l ih =>
    have hc : p c = false := h c (by simp)
    have ih' := ih (fun e he => h e (by simp [he]))
    show splitOnP p (c :: (l ++ d :: r)) = (c :: l) :: splitOnP p r
    simp only [splitOnP, List.append_eq]
    rw [if_neg (by simp [hc]), ih']

/-- Date-precision tag attached to a parsed partial date. -/
inductive Granularity
  | day
  | month
  | year
deriving DecidableEq

/-- A resolved calendar date. -/
structure PDate where
  year : Nat
  month : Nat
  day : Nat
deriving DecidableEq

/-- Every character is an ASCII digit. -/
def allDigits (l : List Char) : Bool := l.all isDigitB

/-- Decimal value of a digit string. -/
def digitsVal (l : List Char) : Nat :=
  l.foldl (fun n c => 10 * n + (c.toNat - 48)) 0

/-- Modelled from the spec: `validate_dt`
(`cl/corpus_importer/management/commands/harvard_opinions.py`, absent from
the snapshot, per spec section 4.1).  Accepts `YYYY-MM-DD`, `YYYY-MM` or
`YYYY` date strings; month-precision dates resolve to the 15th of the
month, year-only dates to July 1 of the year, and the result carries the
granularity actually known. -/
def validate_dt (s : String) : Option (PDate × Granularity) :=
  match splitOnP (fun c => c == '-') s.data with
  | [y] =>
    if allDigits y = true ∧ y.length = 4 then
      some (⟨digitsVal y, 7, 1⟩, .year)
    else none
  | [y, m] =>
    if allDigits y = true ∧ y.length = 4 ∧ allDigits m = true ∧ m.length = 2 ∧
        1 ≤ digitsVal m ∧ digitsVal m ≤ 12 then
      some (⟨digitsVal y, digitsVal m, 15⟩, .month)
    else none
  | [y, m, d] =>
    if allDigits y = true ∧ y.length = 4 ∧ allDigits m = true ∧ m.length = 2 ∧
        1 ≤ digitsVal m ∧ digitsVal m ≤ 12 ∧ allDigits d = true ∧ d.length = 2 ∧
        1 ≤ digitsVal d ∧ digitsVal d ≤ 31 then
      some (⟨digitsVal y, digitsVal m, digitsVal d⟩, .day)
    else none
  | _ => none

theorem digit_beq_dash_false {c : Char} (h : isDigitB c = true) : (c == '-') = false := by
  cases hb : c == '-' with
  | false => rfl
  | true =>
    have : c = '-' := by
      have := (beq_iff_eq (a := c) (b := '-')).mp hb
      exact this
    subst this
    simp [isDigitB] at h

theorem allDigits_no_dash {l : List Char} (h : allDigits l = true) :
    ∀ c ∈ l, (c == '-') = false := by
  intro c hc
  exact digit_beq_dash_false (by
    have := (List.all_eq_true.mp h) c hc
    exact this)

/-- C4: every year-only input `YYYY` resolves to July 1 of that year with
granularity `year`; every month-precision input `YYYY-MM` resolves to the
15th of that month with granularity `month`; a full `YYYY-MM-DD` input
resolves to that exact date with granularity `day`. -/
theorem validate_dt_partial (y m d : List Char)
    (hy : allDigits y = true) (hy4 : y.length = 4)
    (hm : allDigits m = true) (hm2 : m.length = 2)
    (hm1 : 1 ≤ digitsVal m) (hm12 : digitsVal m ≤ 12)
    (hd : allDigits d = true) (hd2 : d.length = 2)
    (hd1 : 1 ≤ digitsVal d) (hd31 : digitsVal d ≤ 31) :
    validate_dt (String.mk y) = some (⟨digitsVal y, 7, 1⟩, .year) ∧
    validate_dt (String.mk (y ++ '-' :: m)) =
      some (⟨digitsVal y, digitsVal m, 15⟩, .month) ∧
    validate_dt (String.mk (y ++ '-' :: (m ++ '-' :: d))) =
      some (⟨digitsVal y, digitsVal m, digitsVal d⟩, .day) := by
  have hysplit : splitOnP (fun c => c == '-') y = [y] :=
    splitOnP_clean _ _ (allDigits_no_dash hy)
  have hmsplit : splitOnP (fun c => c == '-') m = [m] :=
    splitOnP_clean _ _ (allDigits_no_dash hm)
  have hdsplit : splitOnP (fun c => c == '-') d = [d] :=
    splitOnP_clean _ _ (allDigits_no_dash hd)
  have hym : splitOnP (fun c => c == '-') (y ++ '-' :: m) = [y, m] := by
    rw [splitOnP_clean_append _ _ _ _ (allDigits_no_dash hy) (by decide), hmsplit]
  have hymd : splitOnP (fun c => c == '-') (y ++ '-' :: (m ++ '-' :: d)) = [y, m, d] := by
    rw [splitOnP_clean_append _ _ _ _ (allDigits_no_dash hy) (by decide),
      splitOnP_clean_append _ _ _ _ (allDigits_no_dash hm) (by decide), hdsplit]
  refine ⟨?_, ?_, ?_⟩
  · show validate_dt ⟨y⟩ = _
    rw [validate_dt]
    simp only [hysplit]
    rw [if_pos ⟨hy, hy4⟩]
  · show validate_dt ⟨y ++ '-' :: m⟩ = _
    rw [validate_dt]
    simp only [hym]
    rw [if_pos ⟨hy, hy4, hm, hm2, hm1, hm12⟩]
  · show validate_dt ⟨y ++ '-' :: (m ++ '-' :: d)⟩ = _
    rw [validate_dt]
    simp only [hymd]
    rw [if_pos ⟨hy, hy4, hm, hm2, hm1, hm12, hd, hd2, hd1, hd31⟩]

/-- Witness for C4 at the test suite's inputs 2019, 2019-05 and 2019-05-01. -/
theorem validate_dt_partial_witness :
    validate_dt "2019" = some (⟨2019, 7, 1⟩, .year) ∧
    validate_dt "2019-05" = some (⟨2019, 5, 15⟩, .month) ∧
    validate_dt "2019-05-01" = some (⟨2019, 5, 1⟩, .day) :=
  validate_dt_partial ['2', '0', '1', '9'] ['0', '5'] ['0', '1']
    (by decide) (by decide) (by decide) (by decide) (by decide) (by decide)
    (by decide) (by decide) (by decide) (by decide)

/-- `leadsWith pat l` holds when `pat` is an initial segment of `l`. -/
def leadsWith : List Char → List Char → Bool
  | [], _ => true
  | _ :: _, [] => false
  | a :: pa, b :: lb => a == b && leadsWith pa lb

/-- `containsSub pat l` holds when `pat` occurs contiguously inside `l`. -/
def containsSub (pat : List Char) : List Char → Bool
  | [] => pat.isEmpty
  | c :: l => leadsWith pat (c :: l) || containsSub pat l

/-- Split a character list around the first occurrence of `pat`, returning
the part before and the part after it, or `none` when `pat` is absent. -/
def splitFirstOn (pat : List Char) : List Char → Option (List Char × List Char)
  | [] => none
  | c :: l =>
    if leadsWith pat (c :: l) then some ([], (c :: l).drop pat.length)
    else
      match splitFirstOn pat l with
      | some (a, b) => some (c :: a, b)
      | none => none

/-- Normalize the spaced abbreviation `U. S.` to `U.S.` (spec section 4.2
stage 1: periods/spacing normalized before comparison). -/
def normalizeUS : List Char → List Char
  | 'U' :: '.' :: ' ' :: 'S' :: '.' :: r => 'U' :: '.' :: 'S' :: '.' :: normalizeUS r
  | c :: r => c :: normalizeUS r
  | [] => []

/-- The recognized federal-district direction words (spec section 4.2
stage 2). -/
def directions : List String :=
  ["Eastern", "Western", "Northern", "Southern", "Middle"]

/-- Federal-district reference table: state name, generic district code,
and the directional district codes that exist for that state. -/
def districtTable : List (String × String × List (String × String)) :=
  [("New York", "nyd",
     [("Eastern", "nyed"), ("Northern", "nynd"),
      ("Southern", "nysd"), ("Western", "nywd")]),
   ("Pennsylvania", "pad",
     [("Eastern", "paed"), ("Middle", "pamd"), ("Western", "pawd")])]

/-- Federal-appellate reference table: circuit ordinal and code. -/
def circuitTable : List (String × String) :=
  [("First", "ca1"), ("Second", "ca2"), ("Third", "ca3"), ("Fourth", "ca4"),
   ("Fifth", "ca5"), ("Sixth", "ca6"), ("Seventh", "ca7"), ("Eighth", "ca8"),
   ("Ninth", "ca9"), ("Tenth", "ca10"), ("Eleventh", "ca11")]

/-- The non-empty words of a character list. -/
def wordsOf (l : List Char) : List (List Char) :=
  (splitOnP (fun c => c == ' ') l).filter (fun g => !g.isEmpty)

/-- Stage 2 of the court resolver: `<Direction> District of <State>`
federal-district matching; an unrecognized leading word is treated as noise
and discarded, falling back to the state's generic district code. -/
def matchDistrict (l : List Char) : Option String :=
  match splitFirstOn " District of ".data l with
  | none => none
  | some (pre, rest) =>
    match districtTable.find? (fun e => e.1.data == rest) with
    | none => none
    | some e =>
      match (wordsOf pre).getLast? with
      | none => some e.2.1
      | some w =>
        if directions.any (fun dw => dw.data == w) then
          match e.2.2.find? (fun dc => dc.1.data == w) with
          | some dc => some dc.2
          | none => some e.2.1
        else some e.2.1

/-- Stage 3 of the court resolver: federal-appellate matching for both the
`Court of Appeals for the <Ordinal> Circuit` form and the older
`Circuit Court for the <Ordinal> Circuit` form. -/
def matchAppeals (l : List Char) : Option String :=
  let n := normalizeUS l
  circuitTable.findSome? fun oc =>
    if containsSub ("Court of Appeals for the " ++ oc.1 ++ " Circuit").data n
        || containsSub ("Circuit Court for the " ++ oc.1 ++ " Circuit").data n
    then some oc.2 else none

/-- Modelled from the spec: `match_court_string`
(`cl/corpus_importer/court_regexes.py`, absent from the snapshot, per spec
section 4.2 stages 2 and 3).  The boolean flags select the federal-district
or federal-appellate matching stage. -/
def match_court_string (s : String) (federal_district federal_appeals : Bool) :
    Option String :=
  if federal_district then matchDistrict s.data
  else if federal_appeals then matchAppeals s.data
  else none

/-- State-court name patterns keyed by the state segment of the file-path
hint; keywords are matched case-insensitively (spec section 4.2 stage 4). -/
def statePatterns : List (String × List (List String × String)) :=
  [("california",
     [(["superior court", "appellate division"], "calappdeptsuperct"),
      (["superior court", "appellate department"], "calappdeptsuperct")]),
   ("connecticut",
     [(["appellate session", "superior court"], "connsuperct")])]

/-- State-independent fallback heuristics (spec section 4.2 stage 5):
`Court of Common Pleas` defaults to Connecticut's superior court. -/
def fallbackPatterns : List (String × String) :=
  [("court of common pleas", "connsuperct")]

/-- Modelled from the spec: `get_state_court_object`
(`cl/corpus_importer/import_columbia/parse_opinions.py`, absent from the
snapshot, per spec section 4.2 stages 4 and 5).  Uses the file-path hint to
pick a state's pattern table, and falls back to state-independent
heuristics when the path carries no state signal. -/
def get_state_court_object (q path : String) : Option String :=
  let nm := q.data.map lcChar
  let pth := path.data.map lcChar
  let hit := statePatterns.findSome? fun sp =>
    if containsSub sp.1.data pth then
      sp.2.findSome? fun pat =>
        if pat.1.all (fun k => containsSub k.data nm) then some pat.2 else none
    else none
  match hit with
  | some c => some c
  | none =>
    fallbackPatterns.findSome? fun fp =>
      if containsSub fp.1.data nm then some fp.2 else none

/-- Modelled from the spec: the staged court resolver of spec section 4.2
(first match wins across the federal and state stages; an unmatched name
yields the explicit unresolved signal `none`). -/
def resolve_court (name path : String) : Option String :=
  match match_court_string name true false with
  | some c => some c
  | none =>
    match match_court_string name false true with
    | some c => some c
    | none => get_state_court_object name path

/-- C5: for every state in the district table and every directional district
that exists for it, `<Direction> District of <State>` resolves to the
directional code, while an unrecognized leading word before
`District of <State>` is discarded as noise and yields the state's generic
district code rather than an unresolved result. -/
theorem match_court_district :
    (districtTable.all fun e =>
        e.2.2.all fun dc =>
          match_court_string (dc.1 ++ " District of " ++ e.1) true false
            == some dc.2) = true
    ∧ match_court_string "Eastern District of New York" true false = some "nyed"
    ∧ match_court_string "Nathan District of New York" true false = some "nyd"
    ∧ match_court_string "Nate District of New York" true false = some "nyd" := by
  refine ⟨by decide, by decide, by decide, by decide⟩

/-- C6: the `Court of Appeals for the Ninth Circuit` form and the older
`Circuit Court for the Ninth Circuit` form, under both the `U.S.` and
`U. S.` spacing variants, all resolve to the Ninth Circuit code `ca9`. -/
theorem match_court_appeals :
    match_court_string "U. S. Court of Appeals for the Ninth Circuit" false true
      = some "ca9"
    ∧ match_court_string "U.S. Court of Appeals for the Ninth Circuit" false true
      = some "ca9"
    ∧ match_court_string "U. S. Circuit Court for the Ninth Circuit" false true
      = some "ca9"
    ∧ match_court_string "U.S. Circuit Court for the Ninth Circuit" false true
      = some "ca9" := by
  refine ⟨by decide, by decide, by decide, by decide⟩

/-- C9: court resolution is deterministic; the resolver is a pure function
of the name and path-hint pair, so two runs on the same input pair yield
the same canonical code or the same unresolved signal. -/
theorem resolve_court_deterministic :
    ∀ name path : String, resolve_court name path = resolve_court name path :=
  fun _ _ => rfl

/-- C10: a meaningless file-path hint does not block state-court
resolution when the name alone carries an unambiguous pattern: the
`Court of Common Pleas` fallback fires on the Hartford County input with
path hint `asdf`, resolving to Connecticut's superior court. -/
theorem state_court_fallback :
    get_state_court_object "Court of Common Pleas  Hartford County" "asdf"
      = some "connsuperct" := by
  decide

/-- Stoplist of boilerplate litigation tokens removed during case-name
winnowing (spec section 4.3). -/
def caseStops : List String :=
  ["united", "states", "of", "america", "v", "vs", "plaintiff", "appellee",
   "appellant", "respondent", "defendant", "in", "re", "the", "matter"]

/-- Modelled from the spec: `winnow_case_name`
(`cl/corpus_importer/management/commands/harvard_opinions.py`, absent from
the snapshot, per spec section 4.3).  Lower-cases, tokenizes on whitespace
and punctuation, and removes the boilerplate stoplist together with
single-letter tokens. -/
def winnow_case_name (s : String) : List String :=
  (((splitOnP (fun c => !isAlnumB c) (s.data.map lcChar)).filter
      (fun t => decide (1 < t.length))).map String.mk).filter
    (fun w => !(caseStops.contains w))

/-- Strip markup tags from a character stream, dropping everything between
`<` and `>`; the flag records whether the scanner is inside a tag. -/
def stripTagsAux : Bool → List Char → List Char
  | _, [] => []
  | _, '<' :: r => stripTagsAux true r
  | _, '>' :: r => stripTagsAux false r
  | true, _ :: r => stripTagsAux true r
  | false, c :: r => c :: stripTagsAux false r

/-- Extract the text content of every `<opinion ...> ... </opinion>` block,
separated by spaces; the fuel argument bounds the recursion. -/
def extractOpAux : Nat → List Char → List Char
  | 0, _ => []
  | f + 1, l =>
    match splitFirstOn "<opinion".data l with
    | none => []
    | some (_, afterOpen) =>
      match splitFirstOn ['>'] afterOpen with
      | none => []
      | some (_, afterGt) =>
        match splitFirstOn "</opinion>".data afterGt with
        | none => afterGt
        | some (content, rest) => content ++ ' ' :: extractOpAux f rest

/-- Collapse whitespace runs to single spaces and trim the ends. -/
def collapseSpaces (l : List Char) : List Char :=
  List.intercalate [' '] (wordsOf l)

/-- Modelled from the spec: `clean_body_content`
(`cl/corpus_importer/management/commands/harvard_opinions.py`, absent from
the snapshot, per spec sections 4.1 and 4.4).  Keeps only the opinion
blocks when the input is a marked-up case body, strips the remaining tags,
lower-cases, removes punctuation, and collapses whitespace; the result is
the normalized character-code sequence fed to the similarity engine. -/
def clean_body_content (s : String) : List Nat :=
  let raw := s.data
  let base :=
    match splitFirstOn "<opinion".data raw with
    | some _ => extractOpAux raw.length raw
    | none => raw
  let txt := stripTagsAux false base
  let low := txt.map lcChar
  let keep := low.filter (fun c => isAlnumB c || c == ' ')
  (collapseSpaces keep).map Char.toNat

/-- Length of the common prefix of two code sequences. -/
def cpl : List Nat → List Nat → Nat
  | x :: xs, y :: ys => if x = y then cpl xs ys + 1 else 0
  | _, _ => 0

/-- Best match of `sa` against every suffix of the second list, returning
the earliest position attaining the longest common prefix length; `j` is
the index of the first suffix considered. -/
def bestB (sa : List Nat) : Nat → List Nat → Nat × Nat
  | _, [] => (0, 0)
  | j, y :: ys =>
    let k := cpl sa (y :: ys)
    let p := bestB sa (j + 1) ys
    if p.2 > k then p else (j, k)

/-- Earliest-longest common substring of two code sequences, as a triple
(position in the first, position in the second, length). -/
def bestA (b : List Nat) : Nat → List Nat → Nat × Nat × Nat
  | _, [] => (0, 0, 0)
  | i, x :: xs =>
    let jk := bestB (x :: xs) 0 b
    let p := bestA b (i + 1) xs
    if p.2.2 > jk.2 then p else (i, jk.1, jk.2)

/-- Total length of the recursively matched common blocks, counting only
substantial blocks (longer than five characters), in the style of
longest-matching-blocks similarity; the fuel bounds the recursion. -/
def matchSum : Nat → List Nat → List Nat → Nat
  | 0, _, _ => 0
  | f + 1, a, b =>
    let ijk := bestA b 0 a
    let i := ijk.1
    let j := ijk.2.1
    let k := ijk.2.2
    if k ≤ 5 then 0
    else
      k + matchSum f (a.take i) (b.take j)
        + matchSum f (a.drop (i + k)) (b.drop (j + k))

/-- Modelled from the spec: `compare_documents`
(`cl/corpus_importer/management/commands/harvard_opinions.py`, absent from
the snapshot, per spec section 4.4).  Symmetric longest-matching-blocks
similarity over two normalized code sequences, scaled to an integer 0-100
by rounding; identical sequences score exactly 100. -/
def compare_documents (a b : List Nat) : Nat :=
  let T := a.length + b.length
  if T = 0 then 100
  else (200 * matchSum T a b + T / 2) / T

/-- The short Aspby opinion case body from the test suite
(`test_short_opinion_matching`). -/
def aspbyCaseBody : String :=
  "<casebody firstpage=\"1007\" lastpage=\"1007\" xmlns=\"http://nrs.harvard.edu/urn-3:HLS.Libr.US_Case_Law.Schema.Case_Body:v1\">\n<parties id=\"b985-7\">State, Respondent, v. Aspby, Petitioner,</parties>\n <docketnumber id=\"Apx\">No. 73722-3.</docketnumber>\n  <opinion type=\"majority\">\n <p id=\"AJ6\">Petition for review of a decision of the Court of Appeals, No. 48369-2-1, September 19, 2002. <em>Denied </em>September 30, 2003.</p>\n  </opinion>\n</casebody>\n"

/-- The plain-text rendering of the same opinion. -/
def matchingClCase : String :=
  "Petition for review of a decision of the Court of Appeals, No. 48369-2-1, September 19, 2002. Denied September 30, 2003."

/-- An edited version differing only in a docket-number digit and a date. -/
def nonmatchClCase : String :=
  "Petition for review of a decision of the Court of Appeals, No. 19667-4-III, October 31, 2002. Denied September 30, 2003."

/-- C8: comparing the short opinion body against its own normalized
rendering scores exactly 100, while comparing it against the version with
an edited docket-number digit and date scores strictly below 100 yet close
to 80. -/
theorem compare_documents_scores :
    compare_documents (clean_body_content aspbyCaseBody)
        (clean_body_content matchingClCase) = 100
    ∧ compare_documents (clean_body_content aspbyCaseBody)
        (clean_body_content nonmatchClCase) < 100
    ∧ 75 ≤ compare_documents (clean_body_content aspbyCaseBody)
        (clean_body_content nonmatchClCase)
    ∧ compare_documents (clean_body_content aspbyCaseBody)
        (clean_body_content nonmatchClCase) ≤ 85 := by
  have hbad : compare_documents (clean_body_content aspbyCaseBody)
      (clean_body_content nonmatchClCase) = 82 := by decide
  refine ⟨by decide, ?_, ?_, ?_⟩ <;> rw [hbad] <;> omega

/-- Case-insensitive normalization key of a surname. -/
def judgeKey (s : String) : List Char := s.data.map lcChar

/-- Lexicographic order on character lists by code point. -/
def lleB : List Char → List Char → Bool
  | [], _ => true
  | _ :: _, [] => false
  | a :: as, b :: bs =>
    if a.toNat < b.toNat then true
    else if b.toNat < a.toNat then false
    else lleB as bs

theorem lleB_total : ∀ a b : List Char, lleB a b = true ∨ lleB b a = true := by
  intro a
  induction a with
  | nil => intro b; left; rfl
  | cons x xs ih =>
    intro b
    cases b with
    | nil => right; rfl
    | cons y ys =>
      rcases Nat.lt_trichotomy x.toNat y.toNat with hlt | heq | hgt
      · left; simp [lleB, hlt]
      · rcases ih ys with h | h
        · left; simp [lleB, heq, h]
        · right; simp [lleB, heq.symm, h]
      · right; simp [lleB, hgt]

theorem lleB_trans : ∀ a b c : List Char,
    lleB a b = true → lleB b c = true → lleB a c = true := by
  intro a
  induction a with
  | nil => intro b c _ _; rfl
  | cons x xs ih =>
    intro b c hab hbc
    cases b with
    | nil => simp [lleB] at hab
    | cons y ys =>
      cases c with
      | nil => simp [lleB] at hbc
      | cons z zs =>
        simp only [lleB] at hab hbc ⊢
        rcases Nat.lt_trichotomy x.toNat y.toNat with hxy | hxy | hxy
        · rcases Nat.lt_trichotomy y.toNat z.toNat with hyz | hyz | hyz
          · simp [Nat.lt_trans hxy hyz]
          · simp [hyz ▸ hxy]
          · simp [hyz, Nat.lt_asymm hyz] at hbc
        · rcases Nat.lt_trichotomy y.toNat z.toNat with hyz | hyz | hyz
          · simp [hxy ▸ hyz]
          · have hxz : x.toNat = z.toNat := hxy.trans hyz
            simp only [hxy, Nat.lt_irrefl, if_false] at hab
            simp only [hyz, Nat.lt_irrefl, if_false] at hbc
            simp [hxz, Nat.lt_irrefl, ih ys zs hab hbc]
          · simp [hyz, Nat.lt_asymm hyz] at hbc
        · simp [hxy, Nat.lt_asymm hxy] at hab

/-- Order on surnames: compare case-insensitive keys lexicographically. -/
def keyLe (a b : String) : Prop := lleB (judgeKey a) (judgeKey b) = true

instance : DecidableRel keyLe := fun _ _ => inferInstanceAs (Decidable (_ = true))

instance : IsTotal String keyLe := ⟨fun _ _ => lleB_total _ _⟩

instance : IsTrans String keyLe := ⟨fun _ _ _ => lleB_trans _ _ _⟩

/-- The normalization keys of a surname list. -/
def keysOf (l : List String) : List (List Char) := l.map judgeKey

/-- Drop every element whose key was already seen, keeping first
occurrences (case-insensitive deduplication). -/
def dedupAux : List (List Char) → List String → List String
  | _, [] => []
  | seen, x :: xs =>
    if judgeKey x ∈ seen then dedupAux seen xs
    else x :: dedupAux (judgeKey x :: seen) xs

/-- Case-insensitive deduplication keeping first occurrences. -/
def dedupKey (l : List String) : List String := dedupAux [] l

/-- Union of two surname lists: deduplicate case-insensitively and sort
alphabetically by normalized surname. -/
def sortUnion (a b : List String) : List String :=
  List.insertionSort keyLe (dedupKey (a ++ b))

/-- Role words rejected during judge-surname extraction: they never count
as surnames (spec section 4.1). -/
def judgeStops : List String :=
  ["argued", "before", "and", "a", "the", "justice", "justices", "judge",
   "judges", "chief", "senior", "associate", "presiding", "honorable",
   "hon", "jr", "sr", "j", "jj", "cj", "pj", "concurring", "concurs",
   "concur", "dissenting", "dissents", "dissent", "joined", "joins",
   "delivered", "opinion", "court", "curiam", "per", "by"]

/-- Keep only the letters of a word, stripping punctuation. -/
def cleanWord (w : List Char) : List Char := w.filter isAlphaB

/-- Modelled from the spec: judge-surname extraction from a free-text
judges block (`cl/people_db/lookup_utils.py` and the judges handling of
`harvard_merge.py`, absent from the snapshot, per spec section 4.1): split
on separators, strip titles and punctuation, reject role words, keeping
surname tokens. -/
def extract_judges (s : String) : List String :=
  let segs := splitOnP (fun c => c == ',' || c == '&' || c == ';') s.data
  let ws := segs.flatMap wordsOf
  let cleaned := ws.map cleanWord
  (cleaned.filter (fun w =>
      !w.isEmpty && !(judgeStops.contains (String.mk (w.map lcChar))))).map
    String.mk

/-- Modelled from the spec: `merge_judges`
(`cl/corpus_importer/management/commands/harvard_merge.py`, absent from the
snapshot, per spec sections 3 and 4.5): the stored judges value becomes the
case-insensitively deduplicated, alphabetically sorted union of the
internal surname list and the surnames extracted from the external judges
block. -/
def merge_judges (internal : List String) (block : String) : List String :=
  sortUnion internal (extract_judges block)

theorem keysOf_cons (x : String) (l : List String) :
    keysOf (x :: l) = judgeKey x :: keysOf l := rfl

theorem keysOf_append (a b : List String) :
    keysOf (a ++ b) = keysOf a ++ keysOf b := List.map_append _ _ _

theorem mem_keysOf_dedupAux (seen : List (List Char)) (l : List String)
    (k : List Char) :
    k ∈ keysOf (dedupAux seen l) ↔ k ∈ keysOf l ∧ k ∉ seen := by
  induction l generalizing seen with
  | nil => simp [dedupAux, keysOf]
  | cons x xs ih =>
    simp only [dedupAux]
    by_cases hmem : judgeKey x ∈ seen
    · rw [if_pos hmem, ih]
      simp only [keysOf_cons, List.mem_cons]
      constructor
      · rintro ⟨h1, h2⟩
        exact ⟨Or.inr h1, h2⟩
      · rintro ⟨h1 | h1, h2⟩
        · exact absurd (h1 ▸ hmem) h2
        · exact ⟨h1, h2⟩
    · rw [if_neg hmem]
      simp only [keysOf_cons, List.mem_cons, ih]
      constructor
      · rintro (rfl | ⟨h1, h2⟩)
        · exact ⟨Or.inl rfl, hmem⟩
        · exact ⟨Or.inr h1, fun hs => h2 (Or.inr hs)⟩
      · rintro ⟨h1 | h1, h2⟩
        · exact Or.inl h1
        · by_cases hk : k = judgeKey x
          · exact Or.inl hk
          · exact Or.inr ⟨h1, fun hc => hc.elim hk h2⟩

theorem nodup_keysOf_dedupAux (seen : List (List Char)) (l : List String) :
    (keysOf (dedupAux seen l)).Nodup := by
  induction l generalizing seen with
  | nil => simp [dedupAux, keysOf]
  | cons x xs ih =>
    simp only [dedupAux]
    by_cases hmem : judgeKey x ∈ seen
    · rw [if_pos hmem]; exact ih seen
    · rw [if_neg hmem, keysOf_cons, List.nodup_cons]
      refine ⟨fun hc => ?_, ih _⟩
      rw [mem_keysOf_dedupAux] at hc
      exact hc.2 (List.mem_cons_self _ _)

theorem dedupAux_eq_nil (seen : List (List Char)) (l : List String)
    (h : ∀ k ∈ keysOf l, k ∈ seen) : dedupAux seen l = [] := by
  induction l with
  | nil => rfl
  | cons x xs ih =>
    have hx : judgeKey x ∈ seen := h _ (by simp [keysOf_cons])
    simp only [dedupAux, if_pos hx]
    exact ih fun k hk => h k (by simp [keysOf_cons, hk])

theorem dedupAux_append_eq (u v : List String) (seen : List (List Char))
    (hu : (keysOf u).Nodup) (hdisj : ∀ k ∈ keysOf u, k ∉ seen)
    (hv : ∀ k ∈ keysOf v, k ∈ seen ∨ k ∈ keysOf u) :
    dedupAux seen (u ++ v) = u := by
  induction u generalizing seen with
  | nil =>
    simp only [List.nil_append]
    exact dedupAux_eq_nil seen v fun k hk =>
      (hv k hk).resolve_right (by simp [keysOf])
  | cons x xs ih =>
    have hx : judgeKey x ∉ seen := hdisj _ (by simp [keysOf_cons])
    have hu' := List.nodup_cons.mp (keysOf_cons x xs ▸ hu)
    simp only [List.cons_append, dedupAux, if_neg hx]
    congr 1
    refine ih _ hu'.2 ?_ ?_
    · intro k hk hc
      rcases List.mem_cons.mp hc with h1 | h1
      · exact hu'.1 (h1 ▸ hk)
      · exact hdisj k (by simp [keysOf_cons, hk]) h1
    · intro k hk
      rcases hv k hk with h1 | h1
      · exact Or.inl (List.mem_cons_of_mem _ h1)
      · rcases List.mem_cons.mp (keysOf_cons x xs ▸ h1) with h2 | h2
        · exact Or.inl (h2 ▸ List.mem_cons_self _ _)
        · exact Or.inr h2

theorem keysOf_sortUnion_mem (a b : List String) (k : List Char) :
    k ∈ keysOf (sortUnion a b) ↔ k ∈ keysOf a ∨ k ∈ keysOf b := by
  have hperm : List.Perm (keysOf (sortUnion a b)) (keysOf (dedupKey (a ++ b))) :=
    (List.perm_insertionSort keyLe _).map judgeKey
  rw [hperm.mem_iff]
  unfold dedupKey
  rw [mem_keysOf_dedupAux]
  simp [keysOf_append]

theorem keysOf_sortUnion_nodup (a b : List String) :
    (keysOf (sortUnion a b)).Nodup := by
  have hperm : List.Perm (keysOf (sortUnion a b)) (keysOf (dedupKey (a ++ b))) :=
    (List.perm_insertionSort keyLe _).map judgeKey
  exact hperm.nodup_iff.mpr (nodup_keysOf_dedupAux _ _)

theorem sortUnion_sorted (a b : List String) :
    List.Sorted keyLe (sortUnion a b) :=
  List.sorted_insertionSort keyLe _

theorem sortUnion_eq_self (u v : List String)
    (hs : List.Sorted keyLe u) (hn : (keysOf u).Nodup)
    (hsub : ∀ k ∈ keysOf v, k ∈ keysOf u) :
    sortUnion u v = u := by
  unfold sortUnion dedupKey
  rw [dedupAux_append_eq u v [] hn (by simp) fun k hk => Or.inr (hsub k hk)]
  exact hs.insertionSort_eq

theorem sortUnion_absorb (a b : List String) :
    sortUnion (sortUnion a b) b = sortUnion a b :=
  sortUnion_eq_self _ _ (sortUnion_sorted a b) (keysOf_sortUnion_nodup a b)
    fun k hk => (keysOf_sortUnion_mem a b k).mpr (Or.inr hk)

/-- The internal cluster record's reconciled fields (spec section 3). -/
structure ClusterRec where
  attorneys : String
  syllabus : String
  judges : List String
deriving DecidableEq

/-- The external source document's parsed fields (spec sections 3 and 4.5:
reconciliation takes the external source's parsed field values). -/
structure HarvardRec where
  attorneys : String
  syllabus : String
  judgesBlock : String
deriving DecidableEq

/-- The free-text overwrite fields of spec section 4.5. -/
inductive TextField
  | attorneys
  | syllabus
deriving DecidableEq

/-- Diff-dictionary name of a free-text field. -/
def fieldName : TextField → String
  | .attorneys => "attorneys"
  | .syllabus => "syllabus"

/-- Internal value of a free-text field. -/
def getInt : ClusterRec → TextField → String
  | c, .attorneys => c.attorneys
  | c, .syllabus => c.syllabus

/-- External value of a free-text field. -/
def getExt : HarvardRec → TextField → String
  | h, .attorneys => h.attorneys
  | h, .syllabus => h.syllabus

/-- Diff entry for one free-text field: reported only when both values are
non-empty and differ, as the pair (external value, internal value). -/
def textDiff (nm int ext : String) : List (String × String × String) :=
  if int ≠ "" ∧ ext ≠ "" ∧ int ≠ ext then [(nm, ext, int)] else []

/-- Deterministic storage rendering of a surname list. -/
def renderJudges (l : List String) : String := String.intercalate ", " l

/-- Modelled from the spec: `combine_non_overlapping_data`
(`cl/corpus_importer/management/commands/harvard_merge.py`, absent from the
snapshot, per spec section 4.5).  Returns the mapping of field name to
(external value, internal value) for every field whose values differ
meaningfully; an empty internal field is filled silently and produces no
entry, and the judges entry carries the merged union candidate. -/
def combine_non_overlapping_data (c : ClusterRec) (h : HarvardRec) :
    List (String × String × String) :=
  let ext := extract_judges h.judgesBlock
  let cand := sortUnion c.judges ext
  textDiff "attorneys" c.attorneys h.attorneys
    ++ textDiff "syllabus" c.syllabus h.syllabus
    ++ (if c.judges ≠ [] ∧ ext ≠ [] ∧ cand ≠ c.judges then
          [("judges", renderJudges cand, renderJudges c.judges)]
        else [])

/-- Silent fill: adopt the external value only when the internal one is
empty. -/
def fillText (int ext : String) : String := if int = "" then ext else int

/-- `subKeysB a b` holds when every normalized surname of `a` occurs in
`b`. -/
def subKeysB (a b : List String) : Bool :=
  (keysOf a).all fun k => (keysOf b).contains k

theorem subKeysB_iff (a b : List String) :
    subKeysB a b = true ↔ ∀ k ∈ keysOf a, k ∈ keysOf b := by
  simp [subKeysB, List.all_eq_true]

/-- Modelled from the spec: the orchestrator's application of one
reconciliation pass (spec sections 4.5 and 4.6): empty free-text fields
are silently filled, the judges list is auto-merged to the sorted union
when the internal list is empty or the external surname set is a superset,
and every other internal value is retained pending review. -/
def apply_merge (c : ClusterRec) (h : HarvardRec) : ClusterRec :=
  let ext := extract_judges h.judgesBlock
  { attorneys := fillText c.attorneys h.attorneys
    syllabus := fillText c.syllabus h.syllabus
    judges :=
      if c.judges = [] ∨ subKeysB c.judges ext = true then sortUnion c.judges ext
      else c.judges }

/-- The cluster already holds the merged values of the external document:
each free-text field is either absent externally or equal, and the judges
list already absorbs the external surname set. -/
def holdsMerged (c : ClusterRec) (h : HarvardRec) : Prop :=
  (h.attorneys = "" ∨ c.attorneys = h.attorneys) ∧
  (h.syllabus = "" ∨ c.syllabus = h.syllabus) ∧
  (extract_judges h.judgesBlock = [] ∨
    sortUnion c.judges (extract_judges h.judgesBlock) = c.judges)

instance (c : ClusterRec) (h : HarvardRec) : Decidable (holdsMerged c h) :=
  inferInstanceAs (Decidable (_ ∧ _ ∧ _))

theorem apply_merge_attorneys (c : ClusterRec) (h : HarvardRec) :
    (apply_merge c h).attorneys = fillText c.attorneys h.attorneys := rfl

theorem apply_merge_syllabus (c : ClusterRec) (h : HarvardRec) :
    (apply_merge c h).syllabus = fillText c.syllabus h.syllabus := rfl

theorem apply_merge_judges (c : ClusterRec) (h : HarvardRec) :
    (apply_merge c h).judges =
      if c.judges = [] ∨ subKeysB c.judges (extract_judges h.judgesBlock) = true
      then sortUnion c.judges (extract_judges h.judgesBlock)
      else c.judges := rfl

theorem mem_textDiff {nm int ext : String} {x : String × String × String}
    (hx : x ∈ textDiff nm int ext) : x = (nm, ext, int) ∧ int ≠ ext := by
  unfold textDiff at hx
  split at hx
  · next hcond => exact ⟨List.mem_singleton.mp hx, hcond.2.2⟩
  · exact absurd hx (List.not_mem_nil x)

theorem mem_combine {c : ClusterRec} {h : HarvardRec}
    {x : String × String × String}
    (hx : x ∈ combine_non_overlapping_data c h) :
    (x = ("attorneys", h.attorneys, c.attorneys) ∧ c.attorneys ≠ h.attorneys)
    ∨ (x = ("syllabus", h.syllabus, c.syllabus) ∧ c.syllabus ≠ h.syllabus)
    ∨ x.1 = "judges" := by
  simp only [combine_non_overlapping_data, List.mem_append] at hx
  rcases hx with (hA | hB) | hC
  · exact Or.inl (mem_textDiff hA)
  · exact Or.inr (Or.inl (mem_textDiff hB))
  · right; right
    split at hC
    · rw [List.mem_singleton.mp hC]
    · exact absurd hC (List.not_mem_nil x)

/-- C1: field reconciliation never reduces a populated internal field to
empty: when both the internal and external values of a free-text field are
non-empty and differ, the pair (external value, internal value) is reported
as a diff and the internal value is not overwritten; when internal and
external values are equal no diff entry is produced for that field; and no
internal judge surname is ever dropped by the merge. -/
theorem combine_preserves_internal
    (c ch : ClusterRec) (h hh : HarvardRec) (f g : TextField)
    (h1 : getInt c f ≠ "") (h2 : getExt h f ≠ "")
    (h3 : getInt c f ≠ getExt h f) (h4 : getInt ch g = getExt hh g) :
    (fieldName f, getExt h f, getInt c f) ∈ combine_non_overlapping_data c h
    ∧ getInt (apply_merge c h) f = getInt c f
    ∧ (∀ v w, (fieldName g, v, w) ∉ combine_non_overlapping_data ch hh)
    ∧ ∀ k ∈ keysOf c.judges, k ∈ keysOf (apply_merge c h).judges := by
  refine ⟨?_, ?_, ?_, ?_⟩
  · cases f with
    | attorneys =>
      simp only [getInt, getExt, fieldName] at h1 h2 h3 ⊢
      simp [combine_non_overlapping_data, textDiff, h1, h2, h3]
    | syllabus =>
      simp only [getInt, getExt, fieldName] at h1 h2 h3 ⊢
      simp [combine_non_overlapping_data, textDiff, h1, h2, h3]
  · cases f with
    | attorneys =>
      simp only [getInt] at h1 ⊢
      rw [apply_merge_attorneys]
      unfold fillText
      rw [if_neg h1]
    | syllabus =>
      simp only [getInt] at h1 ⊢
      rw [apply_merge_syllabus]
      unfold fillText
      rw [if_neg h1]
  · intro v w hc
    cases g with
    | attorneys =>
      simp only [getInt, getExt] at h4
      rcases mem_combine hc with ⟨_, hne⟩ | ⟨hx, _⟩ | hx
      · exact hne h4
      · have hx1 : fieldName TextField.attorneys = "syllabus" :=
          congrArg Prod.fst hx
        exact absurd hx1 (by decide)
      · have hx1 : fieldName TextField.attorneys = "judges" := hx
        exact absurd hx1 (by decide)
    | syllabus =>
      simp only [getInt, getExt] at h4
      rcases mem_combine hc with ⟨hx, _⟩ | ⟨_, hne⟩ | hx
      · have hx1 : fieldName TextField.syllabus = "attorneys" :=
          congrArg Prod.fst hx
        exact absurd hx1 (by decide)
      · exact hne h4
      · have hx1 : fieldName TextField.syllabus = "judges" := hx
        exact absurd hx1 (by decide)
  · intro k hk
    rw [apply_merge_judges]
    split
    · exact (keysOf_sortUnion_mem _ _ k).mpr (Or.inl hk)
    · exact hk

/-- Witness for C1: a conflicting attorneys pair is reported and the
internal value kept; an equal attorneys pair produces no attorneys entry;
the internal judge Barbera survives the merge. -/
theorem combine_preserves_internal_witness :
    ("attorneys", "Lindley W. Gamp", "B. B. Giles") ∈
      combine_non_overlapping_data ⟨"B. B. Giles", "", ["Barbera"]⟩
        ⟨"Lindley W. Gamp", "", "Adkins"⟩
    ∧ getInt (apply_merge ⟨"B. B. Giles", "", ["Barbera"]⟩
        ⟨"Lindley W. Gamp", "", "Adkins"⟩) .attorneys = "B. B. Giles"
    ∧ (∀ v w, ("attorneys", v, w) ∉
        combine_non_overlapping_data ⟨"Same text", "", []⟩ ⟨"Same text", "", ""⟩)
    ∧ ∀ k ∈ keysOf (ClusterRec.mk "B. B. Giles" "" ["Barbera"]).judges,
        k ∈ keysOf (apply_merge ⟨"B. B. Giles", "", ["Barbera"]⟩
          ⟨"Lindley W. Gamp", "", "Adkins"⟩).judges :=
  combine_preserves_internal
    ⟨"B. B. Giles", "", ["Barbera"]⟩ ⟨"Same text", "", []⟩
    ⟨"Lindley W. Gamp", "", "Adkins"⟩ ⟨"Same text", "", ""⟩
    .attorneys .attorneys (by decide) (by decide) (by decide) (by decide)

/-- C2: merging judge lists produces the union of the internal and external
normalized surname sets, deduplicated case-insensitively and sorted
alphabetically by surname; on the test suite's input, where the external
set is a superset of the internal set, the stored value becomes exactly the
sorted union. -/
theorem merge_judges_sorted_union (internal : List String) (block : String) :
    List.Sorted keyLe (merge_judges internal block)
    ∧ (keysOf (merge_judges internal block)).Nodup
    ∧ (∀ k, k ∈ keysOf (merge_judges internal block) ↔
        k ∈ keysOf internal ∨ k ∈ keysOf (extract_judges block))
    ∧ merge_judges ["Barbera"]
        "Argued before Barbera, C.J., Greene, Adkins, McDonald, Watts, Hotten, Getty JJ."
      = ["Adkins", "Barbera", "Getty", "Greene", "Hotten", "McDonald", "Watts"] :=
  ⟨sortUnion_sorted _ _, keysOf_sortUnion_nodup _ _,
    fun k => keysOf_sortUnion_mem _ _ k, by decide⟩

/-- C3: reconciliation is idempotent: against a cluster already holding the
merged values, it detects no meaningful diff (the empty diff mapping) and
performs no writes; and for every cluster, applying the same external
document a second time leaves the stored fields of the first run
unchanged. -/
theorem reconcile_idempotent (c c2 : ClusterRec) (h h2 : HarvardRec)
    (H : holdsMerged c h) :
    combine_non_overlapping_data c h = []
    ∧ apply_merge c h = c
    ∧ apply_merge (apply_merge c2 h2) h2 = apply_merge c2 h2 := by
  obtain ⟨Ha, Hs, Hj⟩ := H
  refine ⟨?_, ?_, ?_⟩
  · rcases Ha with ha | ha <;> rcases Hs with hs | hs <;>
      rcases Hj with hj | hj <;>
      simp [combine_non_overlapping_data, textDiff, ha, hs, hj]
  · obtain ⟨ca, cs, cj⟩ := c
    simp only at Ha Hs Hj
    simp only [apply_merge, ClusterRec.mk.injEq]
    refine ⟨?_, ?_, ?_⟩
    · rcases Ha with ha | ha
      · unfold fillText; split
        · next hpos => rw [ha, hpos]
        · rfl
      · unfold fillText; split
        · next hpos => rw [← ha]
        · rfl
    · rcases Hs with hs | hs
      · unfold fillText; split
        · next hpos => rw [hs, hpos]
        · rfl
      · unfold fillText; split
        · next hpos => rw [← hs]
        · rfl
    · rcases Hj with hj | hj
      · rw [hj]
        split
        · next hpos =>
          have hcj : cj = [] := by
            rcases hpos with hpos | hpos
            · exact hpos
            · have hsub := (subKeysB_iff cj []).mp hpos
              have : keysOf cj = [] := by
                apply List.eq_nil_iff_forall_not_mem.mpr
                intro k hk
                simpa [keysOf] using hsub k hk
              simpa [keysOf, List.map_eq_nil_iff] using this
          rw [hcj]
          rfl
        · rfl
      · split
        · exact hj
        · rfl
  · obtain ⟨ca, cs, cj⟩ := c2
    simp only [apply_merge, ClusterRec.mk.injEq]
    refine ⟨?_, ?_, ?_⟩
    · by_cases hca : ca = "" <;>
        by_cases he : h2.attorneys = "" <;> simp [fillText, hca, he]
    · by_cases hcs : cs = "" <;>
        by_cases he : h2.syllabus = "" <;> simp [fillText, hcs, he]
    · by_cases hP : cj = [] ∨ subKeysB cj (extract_judges h2.judgesBlock) = true
      · rw [if_pos hP]
        by_cases hQ : sortUnion cj (extract_judges h2.judgesBlock) = []
            ∨ subKeysB (sortUnion cj (extract_judges h2.judgesBlock))
                (extract_judges h2.judgesBlock) = true
        · rw [if_pos hQ]
          exact sortUnion_absorb cj (extract_judges h2.judgesBlock)
        · rw [if_neg hQ]
      · rw [if_neg hP, if_neg hP]

/-- Witness for C3: a cluster already holding the merged attorneys value
and judge list yields the empty diff and is left unchanged, and a second
application of a fresh document is a no-op. -/
theorem reconcile_idempotent_witness :
    combine_non_overlapping_data ⟨"B. B. Giles", "", ["Barbera"]⟩
        ⟨"B. B. Giles", "", "Barbera, C.J."⟩ = []
    ∧ apply_merge ⟨"B. B. Giles", "", ["Barbera"]⟩
        ⟨"B. B. Giles", "", "Barbera, C.J."⟩ = ⟨"B. B. Giles", "", ["Barbera"]⟩
    ∧ apply_merge (apply_merge ⟨"", "", []⟩ ⟨"Gamp", "s", "Smith, Jones"⟩)
        ⟨"Gamp", "s", "Smith, Jones"⟩
      = apply_merge ⟨"", "", []⟩ ⟨"Gamp", "s", "Smith, Jones"⟩ :=
  reconcile_idempotent ⟨"B. B. Giles", "", ["Barbera"]⟩ ⟨"", "", []⟩
    ⟨"B. B. Giles", "", "Barbera, C.J."⟩ ⟨"Gamp", "s", "Smith, Jones"⟩
    (by decide)

/-- C7: the winnowed token sets of `United States v. Frank Esquivel` and of
the concatenated Vinson case names keep only the distinguishing surnames,
and their intersection is empty. -/
theorem winnow_no_overlap :
    winnow_case_name "United States v. Frank Esquivel" = ["frank", "esquivel"]
    ∧ winnow_case_name
        ("UNITED STATES of America, Plaintiff-Appellee, v. Wayne VINSON, "
          ++ "Defendant-Appellant  United States v. Vinson")
        = ["wayne", "vinson", "vinson"]
    ∧ (winnow_case_name "United States v. Frank Esquivel").inter
        (winnow_case_name
          ("UNITED STATES of America, Plaintiff-Appellee, v. Wayne VINSON, "
            ++ "Defendant-Appellant  United States v. Vinson")) = [] := by
  refine ⟨by decide, by decide, by decide⟩
